import Mathlib

/-!
# spider: crawl-and-index pipeline

A shallow embedding of `src/spider.go` (`getTitle`, `extractKeywords`, `scrape`,
`urlBfs`) together with the properties of the natural-language specification
that concern them.

Modelling conventions.

* A Go `string` that is only compared, concatenated or inspected at its first
  byte (addresses, hrefs, keywords) is a `List Char`: the text is taken to be
  valid UTF-8, and the only byte inspected (`'/'`) is ASCII.
* The page content handed to `getTitle` is a list of bytes, because
  `strings.Index` and the slice expression work with byte offsets.
* Everything outside the process (HTTP transport, HTML parser, failures of the
  document store) is an explicit environment `Env`, indexed by the iteration
  of the `urlBfs` loop in which it is consulted.
* A Go run-time panic (slice bounds out of range, nil dereference) is the
  `Outcome.panicked` result.  The goroutine started by `urlBfs` has no
  `recover`, so a panic ends the whole process; the state carried by
  `panicked` is what the document store holds at that moment.
* `freq` and `depth` are unbounded integers.  The store increments a counter
  by one per token of a page, and the program adds 1 only to a depth that is
  at most 1, so neither addition can leave the 64-bit range.
* A store operation that fails leaves the store as it was.
-/

set_option linter.dupNamespace false

namespace Spider

/-! ## Data model (spider.go lines 24-39) -/

/-- Go `string` holding text. -/
abbrev GoString := List Char

/-- Go `string` seen as its bytes. -/
abbrev Bytes := List UInt8

/-- Crawl task: `type URL struct { URL string; root string; depth int }`. -/
structure URL where
  URL : GoString
  root : GoString
  depth : Int
deriving DecidableEq

/-- Posting: `type Url struct { address string; freq int }`. -/
structure Url where
  address : GoString
  freq : Int
deriving DecidableEq

/-- Keyword document: `type Record struct { ID; keyword string; url []Url }`.
The store-generated `_id` plays no part in any query of the program. -/
structure Record where
  keyword : GoString
  url : List Url
deriving DecidableEq

/-- The two collections of database `spider`: `keyword` holds the keyword
documents, `url` holds one document `{url: address}` per visited address. -/
structure Database where
  keyword : List Record
  url : List GoString
deriving DecidableEq

/-- Result of running Go code that may panic. -/
inductive Outcome (σ : Type) where
  | returned (s : σ)
  | panicked (s : σ)
deriving DecidableEq

/-- State reached when the code returned or panicked. -/
def Outcome.state {σ : Type} : Outcome σ → σ
  | .returned s => s
  | .panicked s => s

/-! ## getTitle (lines 43-65) -/

/-- Bytes of an ASCII literal. -/
def ascii (s : String) : Bytes := s.toList.map (fun c => c.toNat.toUInt8)

/-- Loop of `strings.Index`: offset of the first occurrence of `substr` at or
after offset `i`, `-1` when there is none. -/
def indexFrom (substr : Bytes) : Bytes → Nat → Int
  | [], i => if substr = [] then (i : Int) else -1
  | c :: cs, i => if substr.isPrefixOf (c :: cs) then (i : Int) else indexFrom substr cs (i + 1)

/-- Go `strings.Index(s, substr)`. -/
def stringsIndex (s substr : Bytes) : Int := indexFrom substr s 0

/-- Go slice expression `s[lo:hi]`; `none` is the run-time panic
"slice bounds out of range". -/
def slice (s : Bytes) (lo hi : Int) : Option Bytes :=
  if 0 ≤ lo ∧ lo ≤ hi ∧ hi ≤ (s.length : Int) then
    some ((s.drop lo.toNat).take (hi - lo).toNat)
  else none

/-- The function `getTitle`.  Outer `none`: the function panics; `some none`:
it returns `nil`; `some (some b)`: it returns the bytes `b`.  When `<title>` is
absent the code prints a message and goes on with `titleStartIndex = -1 + 7`. -/
def getTitle (pageContent : Bytes) : Option (Option Bytes) :=
  let titleStartIndex := stringsIndex pageContent (ascii "<title>")
  let titleStartIndex := titleStartIndex + 7
  let titleEndIndex := stringsIndex pageContent (ascii "</title>")
  if titleEndIndex = -1 then some none
  else (slice pageContent titleStartIndex titleEndIndex).map some

/-! ## extractKeywords (lines 67-126) -/

/-- Characters the class `[^a-z^A-Z^\d-_']` does NOT match.  Inside the
brackets only the first `^` negates; the two later ones are literal carets.
`\d` is `[0-9]` in Go, and `-` after `\d` is a literal hyphen. -/
def keptChar (c : Char) : Bool :=
  (decide ('a' ≤ c) && decide (c ≤ 'z')) || c == '^' ||
  (decide ('A' ≤ c) && decide (c ≤ 'Z')) ||
  (decide ('0' ≤ c) && decide (c ≤ '9')) ||
  c == '-' || c == '_' || c == Char.ofNat 39

/-- The call `m1.ReplaceAllString(pageText, " ")`: the pattern matches exactly
one character, so every matched character becomes one space. -/
def replaceAll (pageText : List Char) : List Char :=
  pageText.map (fun c => if keptChar c then c else ' ')

/-- Go `unicode.IsSpace`. -/
def isSpace (c : Char) : Bool :=
  let n := c.toNat
  n == 0x20 || (0x09 ≤ n && n ≤ 0x0D) || n == 0x85 || n == 0xA0 || n == 0x1680 ||
  (0x2000 ≤ n && n ≤ 0x200A) || n == 0x2028 || n == 0x2029 || n == 0x202F ||
  n == 0x205F || n == 0x3000

/-- Loop of `strings.Fields`: `cur` is the field being read, in reverse. -/
def fieldsAux : List Char → List Char → List GoString
  | [], cur => if cur = [] then [] else [cur.reverse]
  | c :: cs, cur =>
    if isSpace c then
      (if cur = [] then fieldsAux cs [] else cur.reverse :: fieldsAux cs [])
    else fieldsAux cs (c :: cur)

/-- Go `strings.Fields`. -/
def stringsFields (s : List Char) : List GoString := fieldsAux s []

/-- Lines 68-70: the token list `keywords`. -/
def tokenize (pageText : List Char) : List GoString :=
  stringsFields (replaceAll pageText)

/-- Which store operations fail while one token is recorded. -/
structure OpFaults where
  find : Bool
  all : Bool
  insert : Bool
  inc : Bool
  push : Bool
deriving DecidableEq

/-- No store operation fails. -/
def noFaults : OpFaults := ⟨false, false, false, false, false⟩

/-- Whether a keyword document has a posting for `address`
(query condition `"url.address" : address`). -/
def hasAddress (address : GoString) (r : Record) : Bool :=
  r.url.any (fun u => decide (u.address = address))

/-- Documents returned by `Find` with filter `{keyword: elem}`. -/
def findKeyword (elem : GoString) (coll : List Record) : List Record :=
  coll.filter (fun r => decide (r.keyword = elem))

/-- Update `$inc url.$.freq 1` inside one document: the positional operator
designates the first posting that matches the query condition. -/
def incFirst (address : GoString) : List Url → List Url
  | [] => []
  | u :: us =>
    if u.address = address then { u with freq := u.freq + 1 } :: us
    else u :: incFirst address us

/-- Lines 93-104: `UpdateOne` with filter `{keyword: elem, url.address: address}`
and update `$inc`; changes the first matching document and returns the
collection with `MatchedCount`. -/
def updateOneInc (elem address : GoString) : List Record → List Record × Nat
  | [] => ([], 0)
  | r :: rs =>
    if r.keyword = elem ∧ hasAddress address r = true then
      ({ r with url := incFirst address r.url } :: rs, 1)
    else ((r :: (updateOneInc elem address rs).1), (updateOneInc elem address rs).2)

/-- Lines 109-122: `UpdateOne` with filter `{keyword: elem}` and update
`$push url {address, freq: 1}`; changes the first matching document. -/
def updateOnePush (elem address : GoString) : List Record → List Record
  | [] => []
  | r :: rs =>
    if r.keyword = elem then { r with url := r.url ++ [⟨address, 1⟩] } :: rs
    else r :: updateOnePush elem address rs

/-- Lines 83-91: `InsertOne` of a new keyword document with one posting. -/
def insertOneKeyword (elem address : GoString) (coll : List Record) : List Record :=
  coll ++ [⟨elem, [⟨address, 1⟩]⟩]

/-- Body of the loop of `extractKeywords` (lines 72-124) for one token.
A failed store operation changes nothing in the store.  The driver hands back
a nil `*UpdateResult` together with the error of a failed `UpdateOne`, and
line 108 reads `result.MatchedCount` without a `continue` after the log call
of line 106: a failed increment panics with a nil dereference. -/
def recordOccurrence (f : OpFaults) (address elem : GoString) (coll : List Record) :
    Outcome (List Record) :=
  if f.find then .returned coll
  else if f.all then .returned coll
  else if (findKeyword elem coll).length = 0 then
    (if f.insert then .returned coll else .returned (insertOneKeyword elem address coll))
  else if f.inc then .panicked coll
  else
    let result := updateOneInc elem address coll
    if result.2 = 0 then
      (if f.push then .returned result.1 else .returned (updateOnePush elem address result.1))
    else .returned result.1

/-- The loop `for _, elem := range keywords`; `i` is the position of the next
token, `faults i` says which store operations fail for it. -/
def indexTokens (faults : Nat → OpFaults) (address : GoString) :
    Nat → List GoString → List Record → Outcome (List Record)
  | _, [], coll => .returned coll
  | i, elem :: rest, coll =>
    match recordOccurrence (faults i) address elem coll with
    | .returned coll1 => indexTokens faults address (i + 1) rest coll1
    | .panicked coll1 => .panicked coll1

/-- The function `extractKeywords`, acting on the collection `keyword`. -/
def extractKeywords (faults : Nat → OpFaults) (pageText : List Char)
    (coll : List Record) (url : URL) : Outcome (List Record) :=
  indexTokens faults url.URL 0 (tokenize pageText) coll

/-! ## scrape (lines 128-185) -/

/-- Result of `http.Get` followed by `ioutil.ReadAll`.  `failed`: `http.Get`
returned an error.  `response status body readErr`: a response arrived with
that status code; `body` is what `ReadAll` delivered and `readErr` tells whether
`ReadAll` reported an error. -/
inductive HttpResult where
  | failed
  | response (status : Nat) (body : Bytes) (readErr : Bool)
deriving DecidableEq

/-- What `goquery` exposes of a parsed page: for every `a` element its `href`
attribute when it has one, and the text of the document. -/
structure Document where
  anchors : List (Option GoString)
  text : List Char
deriving DecidableEq

/-- Everything outside the process; the `Nat` argument is the number of loop
iterations `urlBfs` has completed when the call is made. -/
structure Env where
  get : Nat → GoString → HttpResult
  parse : Bytes → Option Document
  findOneErr : Nat → Bool
  opFaults : Nat → Nat → OpFaults
  insertUrlErr : Nat → Bool

/-- Mutable state of a crawl: the database, the frontier (`queue`) and the
log of the tasks for which `http.Get` was called. -/
structure World where
  db : Database
  queue : List URL
  fetched : List URL
deriving DecidableEq

/-- Lines 160-170: the task pushed for one anchor that has an `href`. -/
def childTask (url : URL) (href : GoString) : URL :=
  let href := if href.length ≠ 0 ∧ href.head? = some '/' then "https:".toList ++ href else href
  { URL := href, root := url.root, depth := url.depth + 1 }

/-- Lines 159-172: the tasks pushed by `document.Find("a").Each`. -/
def links (url : URL) (anchors : List (Option GoString)) : List URL :=
  anchors.filterMap (fun a => a.map (childTask url))

/-- The function `scrape`.  Neither the status code nor the error of `ReadAll`
is looked at by the code. -/
def scrape (env : Env) (t : Nat) (url : URL) (w : World) : Outcome World :=
  let w := { w with fetched := w.fetched ++ [url] }
  match env.get t url.URL with
  | .failed => .returned w
  | .response _ pageContent _ =>
    match getTitle pageContent with
    | none => .panicked w
    | some _ =>
      match env.parse pageContent with
      | none => .returned w
      | some document =>
        let w := { w with queue := w.queue ++ links url document.anchors }
        if env.findOneErr t || w.db.url.contains url.URL then .returned w
        else
          match extractKeywords (env.opFaults t) document.text w.db.keyword url with
          | .panicked coll => .panicked { w with db := { w.db with keyword := coll } }
          | .returned coll =>
            let w := { w with db := { w.db with keyword := coll } }
            if env.insertUrlErr t then .returned w
            else .returned { w with db := { w.db with url := w.db.url ++ [url.URL] } }

/-! ## urlBfs (lines 187-203) -/

/-- One iteration of the loop of `urlBfs` on a non-empty frontier. -/
def urlBfsIter (env : Env) (t : Nat) (currURL : URL) (w : World) : Outcome World :=
  if currURL.depth > 1 then .returned w else scrape env t currURL w

/-- The function `urlBfs`, run for at most `fuel` iterations starting with
iteration number `t`; `none` means the fuel ran out before the loop ended. -/
def urlBfs (env : Env) : Nat → Nat → World → Option (Outcome World)
  | 0, _, w =>
    match w.queue with
    | [] => some (.returned w)
    | _ :: _ => none
  | fuel + 1, t, w =>
    match w.queue with
    | [] => some (.returned w)
    | currURL :: rest =>
      match urlBfsIter env t currURL { w with queue := rest } with
      | .panicked w1 => some (.panicked w1)
      | .returned w1 => urlBfs env fuel (t + 1) w1

/-! ## Notions used to state the properties -/

/-- A keyword document has at most one posting per address. -/
def UniqueAddresses (r : Record) : Prop := (r.url.map Url.address).Nodup

/-- One keyword document is well formed: at most one posting per address and
every frequency at least 1. -/
def WellFormedRecord (r : Record) : Prop :=
  UniqueAddresses r ∧ ∀ u ∈ r.url, 1 ≤ u.freq

/-- At most one document per keyword and at most one posting per address in a
document. -/
def UniquePostings (coll : List Record) : Prop :=
  (coll.map Record.keyword).Nodup ∧ ∀ r ∈ coll, UniqueAddresses r

/-- The keyword collection is well formed: at most one document per keyword,
at most one posting per address in a document, every frequency at least 1. -/
def WellFormed (coll : List Record) : Prop :=
  (coll.map Record.keyword).Nodup ∧ ∀ r ∈ coll, WellFormedRecord r

instance decUniqueAddresses (r : Record) : Decidable (UniqueAddresses r) := by
  unfold UniqueAddresses; infer_instance

instance decWellFormedRecord (r : Record) : Decidable (WellFormedRecord r) := by
  unfold WellFormedRecord; infer_instance

instance decUniquePostings (coll : List Record) : Decidable (UniquePostings coll) := by
  unfold UniquePostings; infer_instance

instance decWellFormed (coll : List Record) : Decidable (WellFormed coll) := by
  unfold WellFormed; infer_instance

/-- Frequency of the first posting for `address` in a posting list. -/
def freqIn (address : GoString) : List Url → Option Int
  | [] => none
  | u :: us => if u.address = address then some u.freq else freqIn address us

/-- Frequency the index holds for keyword `k` and `address`: the posting the
increment of lines 93-104 would designate. -/
def lookupFreq (k address : GoString) : List Record → Option Int
  | [] => none
  | r :: rs =>
    if r.keyword = k ∧ hasAddress address r = true then freqIn address r.url
    else lookupFreq k address rs

/-- Number of hops a task is still allowed to be expanded. -/
def weight (u : URL) : Nat := (2 - u.depth).toNat

/-- Order on tasks used for termination: a child is below its parent. -/
def below (c p : URL) : Prop := weight c < weight p

instance belowIrrefl : IsIrrefl URL below := ⟨fun _ => Nat.lt_irrefl _⟩

/-- Depth bounds that hold throughout a crawl started from depth-0 seeds. -/
def DepthInv (w : World) : Prop :=
  (∀ u ∈ w.queue, 0 ≤ u.depth ∧ u.depth ≤ 2) ∧ (∀ u ∈ w.fetched, 0 ≤ u.depth ∧ u.depth ≤ 1)

/-- Maximal non-empty runs of characters that satisfy `p`, in order: the text
is cut at every character that fails `p` and the empty pieces are dropped. -/
def runs (p : Char → Bool) (s : List Char) : List (List Char) :=
  (s.splitOnP (fun c => !p c)).filter (fun r => !r.isEmpty)

/-- The five kinds of character the specification lets into a token, with
the letters and digits of the pattern: ASCII letters, ASCII digits, hyphen,
underscore, apostrophe. -/
def fiveKinds (c : Char) : Bool :=
  (decide ('a' ≤ c) && decide (c ≤ 'z')) || (decide ('A' ≤ c) && decide (c ≤ 'Z')) ||
  (decide ('0' ≤ c) && decide (c ≤ '9')) || c == '-' || c == '_' || c == Char.ofNat 39

/-! ## Concrete inputs -/

/-- Address of a first seed. -/
def seedA : GoString := "https://a.test".toList

/-- Address of a second seed. -/
def seedB : GoString := "https://b.test".toList

/-- Depth-0 task of the first seed. -/
def taskA : URL := ⟨seedA, seedA, 0⟩

/-- Depth-0 task of the second seed. -/
def taskB : URL := ⟨seedB, seedB, 0⟩

/-- Task pushed for a link to the second seed found on the page of the first. -/
def taskAB : URL := ⟨seedB, seedA, 1⟩

/-- A page with a title, one link and the text `hello hello`. -/
def titledPage : Bytes := ascii "<title>Gone</title> <a href=https://b.test>hello hello</a>"

/-- A page that closes a title it never opened, with one link. -/
def strayTagPage : Bytes := ascii "</title><a href=https://b.test>hello hello</a>"

/-- What the HTML parser makes of the titled page: one anchor, and the text
of the title, of the blank after it and of the anchor. -/
def titledDocument : Document := ⟨[some seedB], "Gone hello hello".toList⟩

/-- What the HTML parser makes of the page with the stray closing tag: the
end tag is ignored, one anchor and its text remain. -/
def strayTagDocument : Document := ⟨[some seedB], "hello hello".toList⟩

/-- World with empty collections, an empty frontier and an empty fetch log. -/
def emptyWorld : World := ⟨⟨[], []⟩, [], []⟩

/-- Environment in which every `http.Get` fails. -/
def deadEnv : Env :=
  ⟨fun _ _ => .failed, fun _ => none, fun _ => false, fun _ _ => noFaults, fun _ => false⟩

/-- Environment in which every address answers with status 404 and the titled
page, and the store never fails. -/
def notFoundEnv : Env :=
  ⟨fun _ _ => .response 404 titledPage false, fun _ => some titledDocument,
    fun _ => false, fun _ _ => noFaults, fun _ => false⟩

/-- Environment in which every address answers with status 200 and the page
with the stray closing tag, and the store never fails. -/
def strayTagEnv : Env :=
  ⟨fun _ _ => .response 200 strayTagPage false, fun _ => some strayTagDocument,
    fun _ => false, fun _ _ => noFaults, fun _ => false⟩

/-- Store faults of a pass in which only the increment for the second token
fails. -/
def incFaultAtSecond : Nat → OpFaults :=
  fun i => if i = 1 then ⟨false, false, false, true, false⟩ else noFaults

/-! ## Lemmas -/

theorem incFirst_map_address (a : GoString) (us : List Url) :
    (incFirst a us).map Url.address = us.map Url.address := by
  induction us with
  | nil => rfl
  | cons u us ih =>
    unfold incFirst
    split
    · simp
    · simp [ih]

theorem incFirst_freq_pos (a : GoString) (us : List Url) (h : ∀ u ∈ us, 1 ≤ u.freq) :
    ∀ u ∈ incFirst a us, 1 ≤ u.freq := by
  induction us with
  | nil => simp [incFirst]
  | cons u us ih =>
    unfold incFirst
    have hu := h u (List.mem_cons_self _ _)
    have hus : ∀ v ∈ us, 1 ≤ v.freq := fun v hv => h v (List.mem_cons_of_mem _ hv)
    split
    · intro v hv
      rcases List.mem_cons.mp hv with rfl | hv
      · show 1 ≤ u.freq + 1
        omega
      · exact hus v hv
    · intro v hv
      rcases List.mem_cons.mp hv with rfl | hv
      · exact hu
      · exact ih hus v hv

theorem incFirst_uniqueAddresses (a : GoString) (r : Record) (h : UniqueAddresses r) :
    UniqueAddresses { r with url := incFirst a r.url } := by
  show ((incFirst a r.url).map Url.address).Nodup
  rw [incFirst_map_address]; exact h

theorem incFirst_wellFormed (a : GoString) (r : Record) (h : WellFormedRecord r) :
    WellFormedRecord { r with url := incFirst a r.url } :=
  ⟨incFirst_uniqueAddresses a r h.1, incFirst_freq_pos a r.url h.2⟩

theorem hasAddress_eq_false_iff (a : GoString) (r : Record) :
    hasAddress a r = false ↔ a ∉ r.url.map Url.address := by
  unfold hasAddress
  simp [List.any_eq_false]

theorem push_uniqueAddresses (a : GoString) (r : Record) (h : UniqueAddresses r)
    (hno : hasAddress a r = false) :
    UniqueAddresses { r with url := r.url ++ [Url.mk a 1] } := by
  rw [hasAddress_eq_false_iff] at hno
  show ((r.url ++ [Url.mk a 1]).map Url.address).Nodup
  rw [List.map_append, List.nodup_append]
  refine ⟨h, by simp, ?_⟩
  intro x hx hx2
  simp at hx2
  subst hx2
  exact hno hx

theorem push_wellFormed (a : GoString) (r : Record) (h : WellFormedRecord r)
    (hno : hasAddress a r = false) :
    WellFormedRecord { r with url := r.url ++ [Url.mk a 1] } := by
  refine ⟨push_uniqueAddresses a r h.1 hno, ?_⟩
  intro u hu
  rcases List.mem_append.mp hu with hu | hu
  · exact h.2 u hu
  · simp at hu; subst hu; exact le_refl _

theorem updateOneInc_map_keyword (e a : GoString) (coll : List Record) :
    (updateOneInc e a coll).1.map Record.keyword = coll.map Record.keyword := by
  induction coll with
  | nil => rfl
  | cons r rs ih =>
    unfold updateOneInc
    split
    · simp
    · simp [ih]

theorem updateOneInc_records (P : Record → Prop)
    (hinc : ∀ (a : GoString) (r : Record), P r → P { r with url := incFirst a r.url })
    (e a : GoString) (coll : List Record) (h : ∀ r ∈ coll, P r) :
    ∀ r ∈ (updateOneInc e a coll).1, P r := by
  induction coll with
  | nil => simp [updateOneInc]
  | cons r rs ih =>
    have hr := h r (List.mem_cons_self _ _)
    have hrs : ∀ x ∈ rs, P x := fun x hx => h x (List.mem_cons_of_mem _ hx)
    unfold updateOneInc
    split
    · intro x hx
      rcases List.mem_cons.mp hx with rfl | hx
      · exact hinc a r hr
      · exact hrs x hx
    · intro x hx
      rcases List.mem_cons.mp hx with rfl | hx
      · exact hr
      · exact ih hrs x hx

theorem updateOneInc_unmatched (e a : GoString) (coll : List Record)
    (h : (updateOneInc e a coll).2 = 0) :
    (updateOneInc e a coll).1 = coll ∧ ∀ r ∈ coll, r.keyword = e → hasAddress a r = false := by
  induction coll with
  | nil => simp [updateOneInc]
  | cons r rs ih =>
    unfold updateOneInc at h ⊢
    split at h
    · simp at h
    · rename_i hne
      simp only [if_neg hne]
      have ih2 := ih h
      refine ⟨by rw [ih2.1], ?_⟩
      intro x hx hk
      rcases List.mem_cons.mp hx with rfl | hx
      · by_contra hc
        exact hne ⟨hk, by simpa using hc⟩
      · exact ih2.2 x hx hk

theorem updateOnePush_map_keyword (e a : GoString) (coll : List Record) :
    (updateOnePush e a coll).map Record.keyword = coll.map Record.keyword := by
  induction coll with
  | nil => rfl
  | cons r rs ih =>
    unfold updateOnePush
    split
    · simp
    · simp [ih]

theorem updateOnePush_records (P : Record → Prop)
    (hpush : ∀ (a : GoString) (r : Record), P r → hasAddress a r = false →
      P { r with url := r.url ++ [Url.mk a 1] })
    (e a : GoString) (coll : List Record) (h : ∀ r ∈ coll, P r)
    (hno : ∀ r ∈ coll, r.keyword = e → hasAddress a r = false) :
    ∀ r ∈ updateOnePush e a coll, P r := by
  induction coll with
  | nil => simp [updateOnePush]
  | cons r rs ih =>
    have hr := h r (List.mem_cons_self _ _)
    have hrs : ∀ x ∈ rs, P x := fun x hx => h x (List.mem_cons_of_mem _ hx)
    unfold updateOnePush
    split
    · rename_i hk
      intro x hx
      rcases List.mem_cons.mp hx with rfl | hx
      · exact hpush a r hr (hno r (List.mem_cons_self _ _) hk)
      · exact hrs x hx
    · intro x hx
      rcases List.mem_cons.mp hx with rfl | hx
      · exact hr
      · exact ih hrs (fun y hy => hno y (List.mem_cons_of_mem _ hy)) x hx

theorem findKeyword_empty_iff (e : GoString) (coll : List Record) :
    (findKeyword e coll).length = 0 ↔ e ∉ coll.map Record.keyword := by
  unfold findKeyword
  rw [List.length_eq_zero, List.filter_eq_nil_iff]
  simp

/-- The update for one token keeps the keywords of the collection pairwise
distinct, whatever store operations fail. -/
theorem recordOccurrence_keywords_nodup (f : OpFaults) (a e : GoString) (coll : List Record)
    (h : (coll.map Record.keyword).Nodup) :
    ((recordOccurrence f a e coll).state.map Record.keyword).Nodup := by
  unfold recordOccurrence
  split
  · exact h
  split
  · exact h
  split
  · rename_i hlen
    split
    · exact h
    · have hno := (findKeyword_empty_iff e coll).mp hlen
      show ((insertOneKeyword e a coll).map Record.keyword).Nodup
      unfold insertOneKeyword
      rw [List.map_append, List.nodup_append]
      refine ⟨h, by simp, ?_⟩
      intro x hx hx2
      simp at hx2
      subst hx2
      exact hno hx
  split
  · exact h
  simp only
  split
  · split
    · show ((updateOneInc e a coll).1.map Record.keyword).Nodup
      rw [updateOneInc_map_keyword]; exact h
    · show ((updateOnePush e a (updateOneInc e a coll).1).map Record.keyword).Nodup
      rw [updateOnePush_map_keyword, updateOneInc_map_keyword]; exact h
  · show ((updateOneInc e a coll).1.map Record.keyword).Nodup
    rw [updateOneInc_map_keyword]; exact h

/-- The update for one token keeps every property of single keyword documents
that the increment, the push and the creation of a document keep. -/
theorem recordOccurrence_records (P : Record → Prop)
    (hinc : ∀ (a : GoString) (r : Record), P r → P { r with url := incFirst a r.url })
    (hpush : ∀ (a : GoString) (r : Record), P r → hasAddress a r = false →
      P { r with url := r.url ++ [Url.mk a 1] })
    (hnew : ∀ e a : GoString, P (Record.mk e [Url.mk a 1]))
    (f : OpFaults) (a e : GoString) (coll : List Record) (h : ∀ r ∈ coll, P r) :
    ∀ r ∈ (recordOccurrence f a e coll).state, P r := by
  unfold recordOccurrence
  split
  · exact h
  split
  · exact h
  split
  · split
    · exact h
    · intro r hr
      rcases List.mem_append.mp hr with hr | hr
      · exact h r hr
      · simp at hr; subst hr; exact hnew e a
  split
  · exact h
  have hinc2 := updateOneInc_records P hinc e a coll h
  simp only
  split
  · rename_i hz
    split
    · exact hinc2
    · have hu := updateOneInc_unmatched e a coll hz
      show ∀ r ∈ updateOnePush e a (updateOneInc e a coll).1, P r
      rw [hu.1]
      exact updateOnePush_records P hpush e a coll h hu.2
  · exact hinc2

/-- Every single-token update keeps the uniqueness of keywords and of the
addresses within each document. -/
theorem recordOccurrence_uniquePostings (f : OpFaults) (a e : GoString) (coll : List Record)
    (h : UniquePostings coll) : UniquePostings (recordOccurrence f a e coll).state :=
  ⟨recordOccurrence_keywords_nodup f a e coll h.1,
    recordOccurrence_records UniqueAddresses incFirst_uniqueAddresses push_uniqueAddresses
      (fun _ _ => by simp [UniqueAddresses]) f a e coll h.2⟩

/-- Every single-token update keeps the keyword collection well formed,
whatever store operations fail and also when the update panics. -/
theorem recordOccurrence_wellFormed (f : OpFaults) (a e : GoString) (coll : List Record)
    (h : WellFormed coll) : WellFormed (recordOccurrence f a e coll).state :=
  ⟨recordOccurrence_keywords_nodup f a e coll h.1,
    recordOccurrence_records WellFormedRecord incFirst_wellFormed push_wellFormed
      (fun _ _ => ⟨by simp [UniqueAddresses],
        by intro u hu; simp at hu; subst hu; exact le_refl _⟩) f a e coll h.2⟩

/-- A property of collections kept by every single-token update is kept by the
whole loop over the tokens. -/
theorem indexTokens_invariant (Q : List Record → Prop)
    (hstep : ∀ (f : OpFaults) (a e : GoString) (coll : List Record),
      Q coll → Q (recordOccurrence f a e coll).state)
    (faults : Nat → OpFaults) (a : GoString) (tokens : List GoString) :
    ∀ (i : Nat) (coll : List Record), Q coll → Q (indexTokens faults a i tokens coll).state := by
  induction tokens with
  | nil => intro i coll h; exact h
  | cons e rest ih =>
    intro i coll h
    have hs := hstep (faults i) a e coll h
    unfold indexTokens
    cases hr : recordOccurrence (faults i) a e coll with
    | returned c1 =>
      rw [hr] at hs
      exact ih (i + 1) c1 hs
    | panicked c1 =>
      rw [hr] at hs
      exact hs

theorem freqIn_incFirst (a : GoString) (us : List Url) :
    freqIn a (incFirst a us) = (freqIn a us).map (· + 1) := by
  induction us with
  | nil => rfl
  | cons u us ih =>
    unfold incFirst
    split
    · rename_i h
      simp [freqIn, h]
    · rename_i h
      simp [freqIn, h, ih]

theorem freqIn_isSome (a : GoString) (us : List Url)
    (h : us.any (fun u => decide (u.address = a)) = true) : ∃ f, freqIn a us = some f := by
  induction us with
  | nil => simp at h
  | cons u us ih =>
    unfold freqIn
    split
    · exact ⟨_, rfl⟩
    · rename_i hne
      simp [hne] at h
      exact ih (by simpa using h)

theorem freqIn_mem (a : GoString) (us : List Url) (n : Int) (h : freqIn a us = some n) :
    ∃ u ∈ us, u.address = a ∧ u.freq = n := by
  induction us with
  | nil => simp [freqIn] at h
  | cons u us ih =>
    unfold freqIn at h
    split at h
    · rename_i he
      exact ⟨u, List.mem_cons_self _ _, he, by simpa using h⟩
    · obtain ⟨v, hv, h1, h2⟩ := ih h
      exact ⟨v, List.mem_cons_of_mem _ hv, h1, h2⟩

theorem freqIn_append_new (a : GoString) (us : List Url)
    (h : us.any (fun u => decide (u.address = a)) = false) :
    freqIn a (us ++ [Url.mk a 1]) = some 1 := by
  induction us with
  | nil => simp [freqIn]
  | cons u us ih =>
    simp only [List.any_cons, Bool.or_eq_false_iff, decide_eq_false_iff_not] at h
    simp only [List.cons_append, freqIn, if_neg h.1]
    exact ih h.2

theorem hasAddress_incFirst (a : GoString) (r : Record) :
    hasAddress a { r with url := incFirst a r.url } = hasAddress a r := by
  have h := incFirst_map_address a r.url
  unfold hasAddress
  have e : ∀ l : List Url, l.any (fun u => decide (u.address = a)) =
      (l.map Url.address).any (fun x => decide (x = a)) := by
    intro l
    induction l with
    | nil => rfl
    | cons u us ihl => simp only [List.any_cons, List.map_cons, ihl]
  rw [e, e, h]

theorem lookupFreq_mem (k a : GoString) (coll : List Record) (n : Int)
    (h : lookupFreq k a coll = some n) :
    ∃ r ∈ coll, r.keyword = k ∧ ∃ u ∈ r.url, u.address = a ∧ u.freq = n := by
  induction coll with
  | nil => simp [lookupFreq] at h
  | cons r rs ih =>
    unfold lookupFreq at h
    split at h
    · rename_i hm
      exact ⟨r, List.mem_cons_self _ _, hm.1, freqIn_mem a r.url n h⟩
    · obtain ⟨x, hx, h1, h2⟩ := ih h
      exact ⟨x, List.mem_cons_of_mem _ hx, h1, h2⟩

theorem lookupFreq_none_of_fresh (k a : GoString) (coll : List Record)
    (h : ∀ r ∈ coll, ∀ u ∈ r.url, u.address ≠ a) : lookupFreq k a coll = none := by
  induction coll with
  | nil => rfl
  | cons r rs ih =>
    unfold lookupFreq
    have hr : hasAddress a r = false := by
      unfold hasAddress
      simp only [List.any_eq_false, decide_eq_true_eq]
      exact fun u hu => h r (List.mem_cons_self _ _) u hu
    simp only [hr, Bool.false_eq_true, and_false, if_false]
    exact ih (fun x hx => h x (List.mem_cons_of_mem _ hx))

theorem lookupFreq_none_of_unmatched (e a : GoString) (coll : List Record)
    (h : ∀ r ∈ coll, r.keyword = e → hasAddress a r = false) : lookupFreq e a coll = none := by
  induction coll with
  | nil => rfl
  | cons r rs ih =>
    unfold lookupFreq
    have hr : ¬ (r.keyword = e ∧ hasAddress a r = true) := by
      intro hc
      have := h r (List.mem_cons_self _ _) hc.1
      rw [this] at hc
      exact Bool.false_ne_true hc.2
    rw [if_neg hr]
    exact ih (fun x hx => h x (List.mem_cons_of_mem _ hx))

theorem lookupFreq_updateOneInc_same (e a : GoString) (coll : List Record) :
    lookupFreq e a (updateOneInc e a coll).1 = (lookupFreq e a coll).map (· + 1) := by
  induction coll with
  | nil => rfl
  | cons r rs ih =>
    unfold updateOneInc
    split
    · rename_i hm
      have h2 : ({ r with url := incFirst a r.url } : Record).keyword = e ∧
          hasAddress a { r with url := incFirst a r.url } = true := by
        rw [hasAddress_incFirst]; exact hm
      simp only [lookupFreq, if_pos h2, if_pos hm]
      exact freqIn_incFirst a r.url
    · rename_i hm
      simp only [lookupFreq, if_neg hm]
      exact ih

theorem lookupFreq_updateOneInc_other (k e a : GoString) (coll : List Record) (hk : k ≠ e) :
    lookupFreq k a (updateOneInc e a coll).1 = lookupFreq k a coll := by
  induction coll with
  | nil => rfl
  | cons r rs ih =>
    unfold updateOneInc
    split
    · rename_i hm
      have h1 : ¬ (r.keyword = k ∧ hasAddress a r = true) := fun hc => hk (hc.1.symm.trans hm.1)
      have h2 : ¬ (({ r with url := incFirst a r.url } : Record).keyword = k ∧
          hasAddress a { r with url := incFirst a r.url } = true) :=
        fun hc => hk (hc.1.symm.trans hm.1)
      simp only [lookupFreq, if_neg h1, if_neg h2]
    · simp only [lookupFreq, ih]

theorem updateOneInc_matched (e a : GoString) (coll : List Record)
    (h : (updateOneInc e a coll).2 ≠ 0) : ∃ f, lookupFreq e a coll = some f := by
  induction coll with
  | nil => simp [updateOneInc] at h
  | cons r rs ih =>
    unfold updateOneInc at h
    unfold lookupFreq
    split at h
    · rename_i hm
      rw [if_pos hm]
      exact freqIn_isSome a r.url hm.2
    · rename_i hm
      rw [if_neg hm]
      exact ih h

theorem lookupFreq_updateOnePush_same (e a : GoString) (coll : List Record)
    (hex : e ∈ coll.map Record.keyword)
    (hno : ∀ r ∈ coll, r.keyword = e → hasAddress a r = false) :
    lookupFreq e a (updateOnePush e a coll) = some 1 := by
  induction coll with
  | nil => simp at hex
  | cons r rs ih =>
    unfold updateOnePush
    split
    · rename_i hk
      have hr := hno r (List.mem_cons_self _ _) hk
      have hf := freqIn_append_new a r.url hr
      have hany : (r.url ++ [Url.mk a 1]).any (fun u => decide (u.address = a)) = true := by
        simp
      have h2 : ({ r with url := r.url ++ [Url.mk a 1] } : Record).keyword = e ∧
          hasAddress a { r with url := r.url ++ [Url.mk a 1] } = true := ⟨hk, hany⟩
      simp only [lookupFreq, if_pos h2]
      exact hf
    · rename_i hk
      have h1 : ¬ (r.keyword = e ∧ hasAddress a r = true) := fun hc => hk hc.1
      simp only [lookupFreq, if_neg h1]
      apply ih
      · simp only [List.map_cons, List.mem_cons] at hex
        rcases hex with hex | hex
        · exact absurd hex.symm hk
        · exact hex
      · exact fun x hx => hno x (List.mem_cons_of_mem _ hx)

theorem lookupFreq_updateOnePush_other (k e a : GoString) (coll : List Record) (hk : k ≠ e) :
    lookupFreq k a (updateOnePush e a coll) = lookupFreq k a coll := by
  induction coll with
  | nil => rfl
  | cons r rs ih =>
    unfold updateOnePush
    split
    · rename_i hm
      have h1 : ¬ (r.keyword = k ∧ hasAddress a r = true) := fun hc => hk (hc.1.symm.trans hm)
      have h2 : ¬ (({ r with url := r.url ++ [Url.mk a 1] } : Record).keyword = k ∧
          hasAddress a { r with url := r.url ++ [Url.mk a 1] } = true) :=
        fun hc => hk (hc.1.symm.trans hm)
      simp only [lookupFreq, if_neg h1, if_neg h2]
    · simp only [lookupFreq, ih]

theorem lookupFreq_insert_same (e a : GoString) (coll : List Record)
    (hno : e ∉ coll.map Record.keyword) :
    lookupFreq e a (insertOneKeyword e a coll) = some 1 := by
  unfold insertOneKeyword
  induction coll with
  | nil => simp [lookupFreq, hasAddress, freqIn]
  | cons r rs ih =>
    simp only [List.map_cons, List.mem_cons, not_or] at hno
    have h1 : ¬ (r.keyword = e ∧ hasAddress a r = true) := fun hc => hno.1 hc.1.symm
    simp only [List.cons_append, lookupFreq, if_neg h1]
    exact ih hno.2

theorem lookupFreq_insert_other (k e a : GoString) (coll : List Record) (hk : k ≠ e) :
    lookupFreq k a (insertOneKeyword e a coll) = lookupFreq k a coll := by
  unfold insertOneKeyword
  induction coll with
  | nil =>
    have h1 : ¬ ((Record.mk e [Url.mk a 1]).keyword = k ∧
        hasAddress a (Record.mk e [Url.mk a 1]) = true) := fun hc => hk hc.1.symm
    simp only [List.nil_append, lookupFreq, if_neg h1]
  | cons r rs ih =>
    show lookupFreq k a (r :: (rs ++ [Record.mk e [Url.mk a 1]])) = lookupFreq k a (r :: rs)
    simp only [lookupFreq, ih]

/-- Collection after one token when no store operation fails. -/
theorem recordOccurrence_noFaults (a e : GoString) (coll : List Record) :
    ∃ coll1, recordOccurrence noFaults a e coll = .returned coll1 ∧
      lookupFreq e a coll1 = some ((lookupFreq e a coll).getD 0 + 1) ∧
      ∀ k, k ≠ e → lookupFreq k a coll1 = lookupFreq k a coll := by
  unfold recordOccurrence
  simp only [noFaults, Bool.false_eq_true, if_false]
  by_cases hlen : (findKeyword e coll).length = 0
  · have hno := (findKeyword_empty_iff e coll).mp hlen
    refine ⟨insertOneKeyword e a coll, by rw [if_pos hlen], ?_, ?_⟩
    · rw [lookupFreq_insert_same e a coll hno]
      have : lookupFreq e a coll = none :=
        lookupFreq_none_of_unmatched e a coll (fun r hr hk => by
          exact absurd (List.mem_map.mpr ⟨r, hr, hk⟩) hno)
      rw [this]; rfl
    · exact fun k hk => lookupFreq_insert_other k e a coll hk
  · have hex : e ∈ coll.map Record.keyword := by
      by_contra hc
      exact hlen ((findKeyword_empty_iff e coll).mpr hc)
    rw [if_neg hlen]
    by_cases hz : (updateOneInc e a coll).2 = 0
    · have hu := updateOneInc_unmatched e a coll hz
      refine ⟨updateOnePush e a (updateOneInc e a coll).1, by rw [if_pos hz], ?_, ?_⟩
      · rw [hu.1, lookupFreq_updateOnePush_same e a coll hex hu.2,
          lookupFreq_none_of_unmatched e a coll hu.2]
        rfl
      · intro k hk
        rw [hu.1]
        exact lookupFreq_updateOnePush_other k e a coll hk
    · refine ⟨(updateOneInc e a coll).1, by rw [if_neg hz], ?_, ?_⟩
      · obtain ⟨f, hf⟩ := updateOneInc_matched e a coll hz
        rw [lookupFreq_updateOneInc_same, hf]
        rfl
      · exact fun k hk => lookupFreq_updateOneInc_other k e a coll hk

theorem indexTokens_noFaults (a : GoString) (tokens : List GoString) :
    ∀ (i : Nat) (coll : List Record),
      ∃ coll1, indexTokens (fun _ => noFaults) a i tokens coll = .returned coll1 ∧
        ∀ k, lookupFreq k a coll1 =
          if k ∈ tokens then some ((lookupFreq k a coll).getD 0 + (tokens.count k : Int))
          else lookupFreq k a coll := by
  induction tokens with
  | nil => intro i coll; exact ⟨coll, rfl, by simp⟩
  | cons e rest ih =>
    intro i coll
    obtain ⟨c1, h1, hsame, hother⟩ := recordOccurrence_noFaults a e coll
    obtain ⟨c2, h2, hfreq⟩ := ih (i + 1) c1
    refine ⟨c2, ?_, ?_⟩
    · simp only [indexTokens, h1]
      exact h2
    · intro k
      rw [hfreq k]
      by_cases hke : k = e
      · subst hke
        rw [hsame]
        by_cases hin : k ∈ rest
        · simp only [hin, if_true, List.mem_cons, true_or, Option.getD_some, List.count_cons_self]
          congr 1
          push_cast
          ring
        · simp only [hin, if_false, List.mem_cons, true_or, if_true, List.count_cons_self,
            List.count_eq_zero_of_not_mem hin]
          rfl
      · rw [hother k hke]
        have hc : (e :: rest).count k = rest.count k := by
          rw [List.count_cons]; simp [Ne.symm hke]
        have hm : k ∈ e :: rest ↔ k ∈ rest := by simp [hke]
        simp only [hm, hc]

theorem links_child (url : URL) (anchors : List (Option GoString)) :
    ∀ c ∈ links url anchors, c.depth = url.depth + 1 ∧ c.root = url.root := by
  intro c hc
  unfold links at hc
  rw [List.mem_filterMap] at hc
  obtain ⟨a, _, ha⟩ := hc
  cases a with
  | none => simp at ha
  | some href =>
    simp only [Option.map_some', Option.some.injEq] at ha
    subst ha
    exact ⟨rfl, rfl⟩

/-- What one call of `scrape` does to the frontier and to the fetch log,
whatever its outcome. -/
theorem scrape_effect (env : Env) (t : Nat) (url : URL) (w : World) :
    ∃ children, (scrape env t url w).state.queue = w.queue ++ children ∧
      (∀ c ∈ children, c.depth = url.depth + 1 ∧ c.root = url.root) ∧
      (scrape env t url w).state.fetched = w.fetched ++ [url] := by
  unfold scrape
  simp only
  split
  · exact ⟨[], by simp [Outcome.state], by simp, rfl⟩
  · split
    · exact ⟨[], by simp [Outcome.state], by simp, rfl⟩
    · split
      · exact ⟨[], by simp [Outcome.state], by simp, rfl⟩
      · rename_i document _
        refine ⟨links url document.anchors, ?_, links_child url document.anchors, ?_⟩
        · split
          · rfl
          · split
            · rfl
            · split <;> rfl
        · split
          · rfl
          · split
            · rfl
            · split <;> rfl

theorem below_wf : WellFounded below := InvImage.wf weight Nat.lt_wfRel.wf

/-- One iteration either panics or replaces the popped task by finitely many
tasks strictly below it. -/
theorem urlBfsIter_effect (env : Env) (t : Nat) (cur : URL) (w : World) :
    ∃ children, (urlBfsIter env t cur w).state.queue = w.queue ++ children ∧
      (∀ c ∈ children, c.depth = cur.depth + 1 ∧ c.root = cur.root ∧ cur.depth ≤ 1) := by
  unfold urlBfsIter
  split
  · exact ⟨[], by simp [Outcome.state], by simp⟩
  · rename_i hd
    obtain ⟨children, hq, hc, _⟩ := scrape_effect env t cur w
    exact ⟨children, hq, fun c hcm => ⟨(hc c hcm).1, (hc c hcm).2, by omega⟩⟩

theorem urlBfs_nil (env : Env) (fuel t : Nat) (w : World) (hq : w.queue = []) :
    urlBfs env fuel t w = some (.returned w) := by
  cases fuel <;> simp only [urlBfs, hq]

theorem urlBfs_cons (env : Env) (fuel t : Nat) (w : World) (cur : URL) (rest : List URL)
    (hq : w.queue = cur :: rest) :
    urlBfs env (fuel + 1) t w =
      match urlBfsIter env t cur { w with queue := rest } with
      | .panicked w1 => some (.panicked w1)
      | .returned w1 => urlBfs env fuel (t + 1) w1 := by
  simp only [urlBfs, hq]

/-- The loop of `urlBfs` always ends: with enough fuel the model yields an
outcome, for every environment and every initial frontier. -/
theorem urlBfs_halts (env : Env) :
    ∀ (m : Multiset URL) (t : Nat) (w : World), (w.queue : Multiset URL) = m →
      ∃ fuel o, urlBfs env fuel t w = some o := by
  intro m
  induction m using (WellFounded.cutExpand below_wf).induction with
  | _ m ih =>
    intro t w hm
    cases hq : w.queue with
    | nil => exact ⟨0, _, urlBfs_nil env 0 t w hq⟩
    | cons cur rest =>
      obtain ⟨children, hch, hprop⟩ := urlBfsIter_effect env t cur { w with queue := rest }
      cases hstep : urlBfsIter env t cur { w with queue := rest } with
      | panicked w1 =>
        refine ⟨1, .panicked w1, ?_⟩
        rw [urlBfs_cons env 0 t w cur rest hq, hstep]
      | returned w1 =>
        rw [hstep] at hch
        have hcut : Relation.CutExpand below (w1.queue : Multiset URL) m := by
          refine ⟨(children : Multiset URL), cur, ?_, ?_⟩
          · intro c hc
            have := hprop c (by simpa using hc)
            show weight c < weight cur
            unfold weight
            omega
          · rw [← hm, hq]
            simp only [Outcome.state] at hch
            rw [hch]
            rw [← Multiset.coe_add, ← Multiset.cons_coe, ← Multiset.singleton_add]
            abel
        obtain ⟨fuel, o, ho⟩ := ih _ hcut (t + 1) w1 rfl
        refine ⟨fuel + 1, o, ?_⟩
        rw [urlBfs_cons env fuel t w cur rest hq, hstep]
        exact ho

theorem urlBfs_returned_empty (env : Env) :
    ∀ (fuel t : Nat) (w w1 : World), urlBfs env fuel t w = some (.returned w1) → w1.queue = [] := by
  intro fuel
  induction fuel with
  | zero =>
    intro t w w1 h
    cases hq : w.queue with
    | nil =>
      rw [urlBfs_nil env 0 t w hq] at h
      simp only [Option.some.injEq, Outcome.returned.injEq] at h
      rw [← h]; exact hq
    | cons cur rest => simp [urlBfs, hq] at h
  | succ fuel ih =>
    intro t w w1 h
    cases hq : w.queue with
    | nil =>
      rw [urlBfs_nil env _ t w hq] at h
      simp only [Option.some.injEq, Outcome.returned.injEq] at h
      rw [← h]; exact hq
    | cons cur rest =>
      rw [urlBfs_cons env fuel t w cur rest hq] at h
      cases hstep : urlBfsIter env t cur { w with queue := rest } with
      | panicked w2 => rw [hstep] at h; simp at h
      | returned w2 => rw [hstep] at h; exact ih (t + 1) w2 w1 h

theorem urlBfsIter_fetched (env : Env) (t : Nat) (cur : URL) (w : World) :
    ∀ u ∈ (urlBfsIter env t cur w).state.fetched, u ∈ w.fetched ∨ (u = cur ∧ cur.depth ≤ 1) := by
  unfold urlBfsIter
  split
  · intro u hu; exact Or.inl hu
  · rename_i hd
    obtain ⟨_, _, _, hf⟩ := scrape_effect env t cur w
    rw [hf]
    intro u hu
    rcases List.mem_append.mp hu with hu | hu
    · exact Or.inl hu
    · exact Or.inr ⟨by simpa using hu, by omega⟩

theorem urlBfsIter_depthInv (env : Env) (t : Nat) (cur : URL) (rest : List URL) (w : World)
    (hq : w.queue = cur :: rest) (h : DepthInv w) :
    DepthInv (urlBfsIter env t cur { w with queue := rest }).state := by
  have hcur := h.1 cur (by rw [hq]; exact List.mem_cons_self _ _)
  obtain ⟨children, hch, hprop⟩ := urlBfsIter_effect env t cur { w with queue := rest }
  refine ⟨?_, ?_⟩
  · rw [hch]
    intro u hu
    rcases List.mem_append.mp hu with hu | hu
    · exact h.1 u (by rw [hq]; exact List.mem_cons_of_mem _ hu)
    · have := hprop u hu
      omega
  · intro u hu
    rcases urlBfsIter_fetched env t cur { w with queue := rest } u hu with hu | ⟨rfl, hd⟩
    · exact h.2 u hu
    · exact ⟨hcur.1, hd⟩

theorem urlBfs_depthInv (env : Env) :
    ∀ (fuel t : Nat) (w : World) (o : Outcome World), urlBfs env fuel t w = some o →
      DepthInv w → DepthInv o.state := by
  intro fuel
  induction fuel with
  | zero =>
    intro t w o h hinv
    cases hq : w.queue with
    | nil =>
      rw [urlBfs_nil env 0 t w hq] at h
      simp only [Option.some.injEq] at h
      rw [← h]; exact hinv
    | cons cur rest => simp [urlBfs, hq] at h
  | succ fuel ih =>
    intro t w o h hinv
    cases hq : w.queue with
    | nil =>
      rw [urlBfs_nil env _ t w hq] at h
      simp only [Option.some.injEq] at h
      rw [← h]; exact hinv
    | cons cur rest =>
      rw [urlBfs_cons env fuel t w cur rest hq] at h
      have hstepInv := urlBfsIter_depthInv env t cur rest w hq hinv
      cases hstep : urlBfsIter env t cur { w with queue := rest } with
      | panicked w2 =>
        rw [hstep] at h hstepInv
        simp only [Option.some.injEq] at h
        rw [← h]; exact hstepInv
      | returned w2 =>
        rw [hstep] at h hstepInv
        exact ih (t + 1) w2 o h hstepInv

theorem indexFrom_range (substr s : Bytes) :
    ∀ i : Nat, indexFrom substr s i = -1 ∨
      ((i : Int) ≤ indexFrom substr s i ∧ indexFrom substr s i ≤ (i : Int) + s.length) := by
  induction s with
  | nil =>
    intro i
    unfold indexFrom
    split
    · right; simp
    · left; rfl
  | cons c cs ih =>
    intro i
    unfold indexFrom
    split
    · right
      refine ⟨le_refl _, ?_⟩
      simp only [List.length_cons]
      push_cast
      omega
    · rcases ih (i + 1) with h | h
      · left; exact h
      · right
        simp only [List.length_cons]
        push_cast at h ⊢
        omega

/-- The inputs on which `getTitle` panics: the closing tag is present and
starts before offset `titleStartIndex`, which is 6 when there is no opening tag
and the end of the first opening tag otherwise. -/
theorem getTitle_eq_none_iff (pageContent : Bytes) :
    getTitle pageContent = none ↔
      stringsIndex pageContent (ascii "</title>") ≠ -1 ∧
      stringsIndex pageContent (ascii "</title>") <
        stringsIndex pageContent (ascii "<title>") + 7 := by
  have hs := indexFrom_range (ascii "<title>") pageContent 0
  have he := indexFrom_range (ascii "</title>") pageContent 0
  unfold getTitle
  simp only [stringsIndex] at *
  by_cases hend : indexFrom (ascii "</title>") pageContent 0 = -1
  · simp [hend]
  · simp only [hend, if_false, Option.map_eq_none', ne_eq, not_false_eq_true, true_and]
    unfold slice
    constructor
    · intro h
      split at h
      · simp at h
      · rename_i hc
        by_contra hlt
        apply hc
        push_cast at hs he
        omega
    · intro h
      rw [if_neg]
      omega

/-- When the first `<title>` comes before the first `</title>`, `getTitle`
returns the bytes between the two tags. -/
theorem getTitle_between (pageContent : Bytes) (i j : Nat)
    (hi : stringsIndex pageContent (ascii "<title>") = (i : Int))
    (hj : stringsIndex pageContent (ascii "</title>") = (j : Int)) (hij : i + 7 ≤ j) :
    getTitle pageContent = some (some ((pageContent.drop (i + 7)).take (j - (i + 7)))) := by
  have he := indexFrom_range (ascii "</title>") pageContent 0
  unfold getTitle
  simp only [stringsIndex] at *
  rw [hi, hj]
  have hne : ¬ ((j : Int) = -1) := by omega
  simp only [hne, if_false]
  unfold slice
  rw [hj] at he
  have hc : (0 : Int) ≤ (i : Int) + 7 ∧ (i : Int) + 7 ≤ (j : Int) ∧
      (j : Int) ≤ (pageContent.length : Int) := by
    rcases he with he | he
    · omega
    · omega
  rw [if_pos hc]
  have h1 : ((i : Int) + 7).toNat = i + 7 := by omega
  have h2 : ((j : Int) - ((i : Int) + 7)).toNat = j - (i + 7) := by omega
  simp only [h1, h2, Option.map_some']

theorem keptChar_eq (c : Char) : keptChar c = (fiveKinds c || c == '^') := by
  unfold keptChar fiveKinds
  cases (decide ('a' ≤ c) && decide (c ≤ 'z')) <;> cases (c == '^') <;>
    cases (decide ('A' ≤ c) && decide (c ≤ 'Z')) <;> cases (decide ('0' ≤ c) && decide (c ≤ '9')) <;>
    cases (c == '-') <;> cases (c == '_') <;> cases (c == Char.ofNat 39) <;> rfl

theorem isSpace_of_keptChar (c : Char) (h : keptChar c = true) : isSpace c = false := by
  have hle : ∀ a b : Char, a ≤ b ↔ a.toNat ≤ b.toNat := fun a b => Iff.rfl
  have heq : ∀ a b : Char, a = b ↔ a.toNat = b.toNat := by
    intro a b
    constructor
    · intro e; rw [e]
    · intro e; exact Char.ext (UInt32.ext (by simpa [Char.toNat, UInt32.toNat] using e))
  unfold keptChar at h
  unfold isSpace
  simp only [Bool.or_eq_true, Bool.and_eq_true, decide_eq_true_eq, beq_iff_eq, hle, heq] at h
  have e1 : 'a'.toNat = 97 := by decide
  have e2 : 'z'.toNat = 122 := by decide
  have e3 : 'A'.toNat = 65 := by decide
  have e4 : 'Z'.toNat = 90 := by decide
  have e5 : '0'.toNat = 48 := by decide
  have e6 : '9'.toNat = 57 := by decide
  have e7 : '^'.toNat = 94 := by decide
  have e8 : '-'.toNat = 45 := by decide
  have e9 : '_'.toNat = 95 := by decide
  have e10 : (Char.ofNat 39).toNat = 39 := by decide
  rw [e1, e2, e3, e4, e5, e6, e7, e8, e9, e10] at h
  simp only [Bool.or_eq_false_iff, Bool.and_eq_false_iff, beq_eq_false_iff_ne, ne_eq,
    decide_eq_false_iff_not, Nat.not_le]
  omega

theorem fieldsAux_replaceAll (s : List Char) :
    ∀ cur : List Char, fieldsAux (replaceAll s) cur =
      ((s.splitOnP (fun c => !keptChar c)).modifyHead (cur.reverse ++ ·)).filter
        (fun r => !r.isEmpty) := by
  induction s with
  | nil =>
    intro cur
    simp only [replaceAll, List.map_nil, fieldsAux, List.splitOnP_nil, List.modifyHead_cons,
      List.append_nil]
    cases cur with
    | nil => simp
    | cons c cs => simp
  | cons c cs ih =>
    intro cur
    have ih2 := ih
    simp only [replaceAll] at ih2
    simp only [replaceAll, List.map_cons, List.splitOnP_cons]
    by_cases hk : keptChar c = true
    · have hs := isSpace_of_keptChar c hk
      simp only [hk, if_true, fieldsAux, hs, Bool.false_eq_true, if_false, Bool.not_true]
      rw [ih2 (c :: cur), List.modifyHead_modifyHead]
      congr 2
      funext x
      simp
    · have hk2 : keptChar c = false := by simpa using hk
      have hsp : isSpace ' ' = true := by decide
      simp only [hk2, Bool.false_eq_true, if_false, fieldsAux, hsp, if_true, Bool.not_false,
        List.modifyHead_cons, List.append_nil]
      have hnil := ih2 []
      simp only [List.reverse_nil, List.nil_append] at hnil
      have hid : (List.modifyHead (fun x => x) (List.splitOnP (fun c => !keptChar c) cs)) =
          List.splitOnP (fun c => !keptChar c) cs := by
        cases List.splitOnP (fun c => !keptChar c) cs <;> rfl
      rw [hid] at hnil
      cases cur with
      | nil => simp [hnil]
      | cons d ds => simp [hnil]

/-- The token list of lines 68-70 is the list of maximal non-empty runs of
characters the pattern does not match. -/
theorem tokenize_eq_runs (pageText : List Char) : tokenize pageText = runs keptChar pageText := by
  unfold tokenize stringsFields runs
  rw [fieldsAux_replaceAll pageText []]
  congr 1
  cases List.splitOnP (fun c => !keptChar c) pageText <;> rfl

theorem splitOnP_congr (p q : Char → Bool) (s : List Char) (h : ∀ c ∈ s, p c = q c) :
    s.splitOnP p = s.splitOnP q := by
  induction s with
  | nil => rfl
  | cons c cs ih =>
    rw [List.splitOnP_cons, List.splitOnP_cons, h c (List.mem_cons_self _ _),
      ih (fun x hx => h x (List.mem_cons_of_mem _ hx))]

/-- On a text without a caret the token list is the list of maximal non-empty
runs of ASCII letters, ASCII digits, hyphens, underscores and apostrophes. -/
theorem tokenize_eq_runs_fiveKinds (pageText : List Char) (h : '^' ∉ pageText) :
    tokenize pageText = runs fiveKinds pageText := by
  rw [tokenize_eq_runs]
  unfold runs
  rw [splitOnP_congr (fun c => !keptChar c) (fun c => !fiveKinds c) pageText]
  intro c hc
  have hne : (c == '^') = false := by
    rw [beq_eq_false_iff_ne]
    intro e
    exact h (e ▸ hc)
  simp only [keptChar_eq, hne, Bool.or_false]

/-- A task whose address is already marked visited: `scrape` never changes the
database, and when `getTitle` returns and the parser succeeds it returns with
the links of the page pushed onto the frontier. -/
theorem scrape_visited (env : Env) (t : Nat) (url : URL) (w : World)
    (hv : url.URL ∈ w.db.url) :
    (scrape env t url w).state.db = w.db ∧
    ∀ (status : Nat) (body : Bytes) (readErr : Bool) (title : Option Bytes)
      (document : Document),
      env.get t url.URL = .response status body readErr → getTitle body = some title →
      env.parse body = some document →
      scrape env t url w = .returned
        { w with fetched := w.fetched ++ [url],
                 queue := w.queue ++ links url document.anchors } := by
  have hc : w.db.url.contains url.URL = true := by
    rw [List.contains_iff_exists_mem_beq]
    exact ⟨url.URL, hv, by simp⟩
  constructor
  · unfold scrape
    simp only [hc, Bool.or_true, if_true]
    split
    · rfl
    · split
      · rfl
      · split <;> rfl
  · intro status body readErr title document hget htitle hparse
    unfold scrape
    simp only [hget, htitle, hparse, hc, Bool.or_true, if_true]

/-- When no increment fails, `extractKeywords` returns, whatever other store
operations fail. -/
theorem indexTokens_returns (faults : Nat → OpFaults) (a : GoString)
    (hinc : ∀ i, (faults i).inc = false) (tokens : List GoString) :
    ∀ (i : Nat) (coll : List Record),
      ∃ coll1, indexTokens faults a i tokens coll = .returned coll1 := by
  induction tokens with
  | nil => intro i coll; exact ⟨coll, rfl⟩
  | cons e rest ih =>
    intro i coll
    have hstep : ∃ c1, recordOccurrence (faults i) a e coll = .returned c1 := by
      unfold recordOccurrence
      simp only [hinc i, Bool.false_eq_true, if_false]
      split
      · exact ⟨_, rfl⟩
      · split
        · exact ⟨_, rfl⟩
        · split
          · split <;> exact ⟨_, rfl⟩
          · split
            · split <;> exact ⟨_, rfl⟩
            · exact ⟨_, rfl⟩
    obtain ⟨c1, h1⟩ := hstep
    obtain ⟨c2, h2⟩ := ih (i + 1) c1
    exact ⟨c2, by simp only [indexTokens, h1]; exact h2⟩

/-- The loop of `urlBfs` ends for every environment and every initial world;
when it ends by returning, the frontier is empty. -/
theorem urlBfs_terminates (env : Env) (t : Nat) (w : World) :
    ∃ fuel o, urlBfs env fuel t w = some o ∧ ∀ w1, o = .returned w1 → w1.queue = [] := by
  obtain ⟨fuel, o, ho⟩ := urlBfs_halts env _ t w rfl
  refine ⟨fuel, o, ho, ?_⟩
  intro w1 h1
  rw [h1] at ho
  exact urlBfs_returned_empty env fuel t w w1 ho

/-! ## The claims -/

/-- Claim C1: for every address, page text and keyword store with at most one
document per keyword and at most one posting per address in a document that
holds no posting for the address, when no store operation fails,
`extractKeywords` returns and afterwards every keyword of the token list has a
keyword document with a posting for the address whose frequency is the number
of occurrences of the keyword in the token list; moreover every posting for
that keyword and address carries that frequency. -/
theorem extractKeywords_posting_frequency (pageText : List Char) (coll : List Record)
    (url : URL) (hwf : UniquePostings coll)
    (hfresh : ∀ r ∈ coll, ∀ u ∈ r.url, u.address ≠ url.URL) :
    ∃ coll1, extractKeywords (fun _ => noFaults) pageText coll url = .returned coll1 ∧
      ∀ k ∈ tokenize pageText,
        (∃ r ∈ coll1, r.keyword = k ∧ ∃ u ∈ r.url, u.address = url.URL ∧
          u.freq = ((tokenize pageText).count k : Int)) ∧
        (∀ r ∈ coll1, r.keyword = k → ∀ u ∈ r.url, u.address = url.URL →
          u.freq = ((tokenize pageText).count k : Int)) := by
  obtain ⟨coll1, hrun, hfreq⟩ := indexTokens_noFaults url.URL (tokenize pageText) 0 coll
  have hwf1 : UniquePostings coll1 := by
    have := indexTokens_invariant UniquePostings recordOccurrence_uniquePostings
      (fun _ => noFaults) url.URL (tokenize pageText) 0 coll hwf
    rw [hrun] at this
    exact this
  refine ⟨coll1, hrun, ?_⟩
  intro k hk
  have hlook : lookupFreq k url.URL coll1 = some ((tokenize pageText).count k : Int) := by
    rw [hfreq k, if_pos hk, lookupFreq_none_of_fresh k url.URL coll hfresh]
    simp
  obtain ⟨r, hr, hrk, u, hu, hua, huf⟩ := lookupFreq_mem k url.URL coll1 _ hlook
  refine ⟨⟨r, hr, hrk, u, hu, hua, huf⟩, ?_⟩
  intro r2 hr2 hr2k u2 hu2 hu2a
  have hreq : r2 = r := List.inj_on_of_nodup_map hwf1.1 hr2 hr (hr2k.trans hrk.symm)
  subst hreq
  have hueq : u2 = u := List.inj_on_of_nodup_map (hwf1.2 r2 hr) hu2 hu (hu2a.trans hua.symm)
  rw [hueq]
  exact huf

/-- Witness of claim C1: the tokens of `Go, Go, and Go!` indexed for one
address into the empty store give frequency 3 for `Go` and 1 for `and`. -/
theorem extractKeywords_posting_frequency_witness :
    UniquePostings [] ∧
    tokenize "Go, Go, and Go!".toList = ["Go".toList, "Go".toList, "and".toList, "Go".toList] ∧
    extractKeywords (fun _ => noFaults) "Go, Go, and Go!".toList [] taskA =
      .returned [⟨"Go".toList, [⟨seedA, 3⟩]⟩, ⟨"and".toList, [⟨seedA, 1⟩]⟩] ∧
    ∃ coll1, extractKeywords (fun _ => noFaults) "Go, Go, and Go!".toList [] taskA =
        .returned coll1 ∧
      ∀ k ∈ tokenize "Go, Go, and Go!".toList,
        (∃ r ∈ coll1, r.keyword = k ∧ ∃ u ∈ r.url, u.address = taskA.URL ∧
          u.freq = ((tokenize "Go, Go, and Go!".toList).count k : Int)) ∧
        (∀ r ∈ coll1, r.keyword = k → ∀ u ∈ r.url, u.address = taskA.URL →
          u.freq = ((tokenize "Go, Go, and Go!".toList).count k : Int)) :=
  ⟨by decide, by decide, by decide,
    extractKeywords_posting_frequency "Go, Go, and Go!".toList [] taskA (by decide)
      (by intro r hr; cases hr)⟩

/-- Claim C2, as amended: when a response arrived and the page was parsed,
`scrape` pushes one task per anchor that has an href, each with the depth of
the current task plus one and its root; the address of the task is `https:`
followed by the href when the href begins with `//`, and the href unchanged
when the href does not begin with `/`.  The scheme and host of the current
address are not used. -/
theorem links_address (url : URL) (href : GoString) :
    (∀ (env : Env) (t : Nat) (w : World) (status : Nat) (body : Bytes) (readErr : Bool)
      (title : Option Bytes) (document : Document),
      env.get t url.URL = .response status body readErr → getTitle body = some title →
      env.parse body = some document →
      (scrape env t url w).state.queue = w.queue ++ links url document.anchors) ∧
    (href.take 2 = ['/', '/'] →
      links url [some href] = [⟨"https:".toList ++ href, url.root, url.depth + 1⟩]) ∧
    (href.head? ≠ some '/' → links url [some href] = [⟨href, url.root, url.depth + 1⟩]) := by
  refine ⟨?_, ?_, ?_⟩
  · intro env t w status body readErr title document hget htitle hparse
    unfold scrape
    simp only [hget, htitle, hparse]
    split
    · rfl
    · split
      · rfl
      · split <;> rfl
  · intro h
    have hne : href.length ≠ 0 ∧ href.head? = some '/' := by
      cases href with
      | nil => simp at h
      | cons c cs =>
        cases cs with
        | nil => simp at h
        | cons d ds =>
          simp only [List.take_succ_cons, List.cons.injEq] at h
          simp [h.1]
    simp [links, childTask, hne]
  · intro h
    have hne : ¬ (href.length ≠ 0 ∧ href.head? = some '/') := fun hc => h hc.2
    simp only [links, childTask, List.filterMap_cons, Option.map_some', List.filterMap_nil,
      if_neg hne]

/-- Witness of claim C2 as amended, at a protocol-relative href and at an
absolute one, and at the scrape of the titled page. -/
theorem links_address_witness :
    links taskA [some "//b.test/about".toList] =
      [⟨"https://b.test/about".toList, seedA, 1⟩] ∧
    links taskA [some "https://b.test".toList] = [⟨"https://b.test".toList, seedA, 1⟩] ∧
    (scrape notFoundEnv 0 taskA emptyWorld).state.queue =
      emptyWorld.queue ++ links taskA titledDocument.anchors :=
  ⟨(links_address taskA "//b.test/about".toList).2.1 (by decide),
    (links_address taskA "https://b.test".toList).2.2 (by decide),
    (links_address taskA []).1 notFoundEnv 0 emptyWorld 404 titledPage false
      (some (ascii "Gone")) titledDocument rfl (by decide) rfl⟩

/-- Counterexample to claim C2 as stated: the anchor `/about` met while
crawling `https://example.com/x` is pushed with the address `https:/about`,
not `https://example.com/about`; and `//b.test/about` is pushed as
`https://b.test/about`, not as scheme and host followed by the href. -/
theorem links_address_counterexample :
    (childTask ⟨"https://example.com/x".toList, seedA, 0⟩ "/about".toList).URL =
      "https:/about".toList ∧
    (childTask ⟨"https://example.com/x".toList, seedA, 0⟩ "/about".toList).URL ≠
      "https://example.com".toList ++ "/about".toList ∧
    (childTask ⟨"https://example.com/x".toList, seedA, 0⟩ "//b.test/about".toList).URL ≠
      "https://example.com".toList ++ "//b.test/about".toList := by
  decide

/-- Claim C3, evaluated where it fails: the caret is none of letter, digit,
hyphen, underscore or apostrophe, yet it is kept inside a token, while `+`
separates; the maximal runs of the five kinds are `x`, `2`, `y`, `z`. -/
theorem tokenize_keeps_caret :
    fiveKinds '^' = false ∧
    tokenize "x^2 y+z".toList = ["x^2".toList, "y".toList, "z".toList] ∧
    runs fiveKinds "x^2 y+z".toList = ["x".toList, "2".toList, "y".toList, "z".toList] := by
  decide

/-- Claim C4: in a run of `urlBfs` from depth-0 seeds, every task `scrape`
pushes for a parent of depth at most 1 (the only parents `urlBfs` hands to it)
has the depth of the parent plus one and the root of the parent; a popped task
of depth greater than 1 is discarded with the database, the fetch log and the
rest of the frontier unchanged; the run ends, and every task that was fetched
has depth 0 or 1. -/
theorem urlBfs_depth_policy (env : Env) (w : World)
    (hseed : ∀ u ∈ w.queue, u.depth = 0) (hlog : w.fetched = []) :
    (∀ (t : Nat) (url : URL) (w1 : World), url.depth ≤ 1 → ∃ children,
      (scrape env t url w1).state.queue = w1.queue ++ children ∧
      ∀ c ∈ children, c.depth = url.depth + 1 ∧ c.root = url.root) ∧
    (∀ (fuel t : Nat) (w1 : World) (currURL : URL) (rest : List URL),
      w1.queue = currURL :: rest → 1 < currURL.depth →
      urlBfs env (fuel + 1) t w1 = urlBfs env fuel (t + 1) { w1 with queue := rest }) ∧
    (∃ fuel o, urlBfs env fuel 0 w = some o) ∧
    (∀ fuel o, urlBfs env fuel 0 w = some o →
      ∀ u ∈ o.state.fetched, 0 ≤ u.depth ∧ u.depth ≤ 1) := by
  refine ⟨?_, ?_, ?_, ?_⟩
  · intro t url w1 _
    obtain ⟨children, hq, hc, _⟩ := scrape_effect env t url w1
    exact ⟨children, hq, hc⟩
  · intro fuel t w1 currURL rest hq hd
    rw [urlBfs_cons env fuel t w1 currURL rest hq]
    simp only [urlBfsIter, gt_iff_lt, hd, if_true]
  · exact urlBfs_halts env _ 0 w rfl
  · intro fuel o ho
    have hinv : DepthInv w := by
      refine ⟨fun u hu => ?_, fun u hu => ?_⟩
      · have := hseed u hu
        omega
      · rw [hlog] at hu
        cases hu
    exact (urlBfs_depthInv env fuel 0 w o ho hinv).2

/-- Witness of claim C4: two depth-0 seeds crawled in the environment that
answers every address with the titled page. -/
theorem urlBfs_depth_policy_witness :
    (∀ u ∈ [taskA, taskB], u.depth = 0) ∧
    (∃ fuel o, urlBfs notFoundEnv fuel 0 ⟨⟨[], []⟩, [taskA, taskB], []⟩ = some o) ∧
    (∀ fuel o, urlBfs notFoundEnv fuel 0 ⟨⟨[], []⟩, [taskA, taskB], []⟩ = some o →
      ∀ u ∈ o.state.fetched, 0 ≤ u.depth ∧ u.depth ≤ 1) :=
  ⟨by decide,
    (urlBfs_depth_policy notFoundEnv ⟨⟨[], []⟩, [taskA, taskB], []⟩ (by decide) rfl).2.2.1,
    (urlBfs_depth_policy notFoundEnv ⟨⟨[], []⟩, [taskA, taskB], []⟩ (by decide) rfl).2.2.2⟩

/-- Claim C5, evaluated where it fails: the address is marked visited and the
page holds a link, but the page closes a title it never opened; `getTitle`
panics inside `scrape`, and the link is not pushed onto the frontier. -/
theorem scrape_visited_stray_tag :
    seedA ∈ [seedA] ∧
    strayTagEnv.parse strayTagPage = some strayTagDocument ∧
    links taskA strayTagDocument.anchors = [taskAB] ∧
    scrape strayTagEnv 0 taskA ⟨⟨[], [seedA]⟩, [], []⟩ =
      .panicked ⟨⟨[], [seedA]⟩, [], [taskA]⟩ := by
  decide

/-- Claim C6, as amended: when `http.Get` returns an error, `scrape` returns
having pushed no task and changed neither collection; only the fetch log
records the attempt. -/
theorem scrape_get_failed (env : Env) (t : Nat) (url : URL) (w : World)
    (h : env.get t url.URL = .failed) :
    scrape env t url w = .returned { w with fetched := w.fetched ++ [url] } := by
  unfold scrape
  simp only [h]

/-- Witness of claim C6 as amended, in the environment where every `http.Get`
fails. -/
theorem scrape_get_failed_witness :
    deadEnv.get 0 taskA.URL = .failed ∧
    scrape deadEnv 0 taskA emptyWorld = .returned ⟨⟨[], []⟩, [], [taskA]⟩ :=
  ⟨rfl, scrape_get_failed deadEnv 0 taskA emptyWorld rfl⟩

/-- Counterexample to claim C6 as stated: a response with status 404 is
processed like any other; its link is pushed, its text is indexed and the
address is marked visited. -/
theorem scrape_not_found_counterexample :
    notFoundEnv.get 0 taskA.URL = .response 404 titledPage false ∧
    scrape notFoundEnv 0 taskA emptyWorld =
      .returned ⟨⟨[⟨"Gone".toList, [⟨seedA, 1⟩]⟩, ⟨"hello".toList, [⟨seedA, 2⟩]⟩], [seedA]⟩,
        [taskAB], [taskA]⟩ := by
  decide

/-- Claim C7, evaluated where it fails: the increment for the second token
fails, `result` is nil, and `extractKeywords` panics at `result.MatchedCount`;
the third token `stop` is never recorded. -/
theorem extractKeywords_inc_failure_panics :
    tokenize "go go stop".toList = ["go".toList, "go".toList, "stop".toList] ∧
    extractKeywords incFaultAtSecond "go go stop".toList [] taskA =
      .panicked [⟨"go".toList, [⟨seedA, 1⟩]⟩] := by
  decide

/-- Claim C8, evaluated where it fails: for a page that holds `</title>`
within its first six bytes and no `<title>`, the slice expression of
`getTitle` has its low bound above its high bound and panics. -/
theorem getTitle_stray_closing_tag :
    stringsIndex (ascii "</title>") (ascii "<title>") = -1 ∧
    stringsIndex (ascii "</title>") (ascii "</title>") = 0 ∧
    getTitle (ascii "</title>") = none := by
  decide

/-- Claim C9: the empty keyword store is well formed, and well-formedness is
kept by the update for one token and by a whole pass of `extractKeywords`,
for every keyword, address and pattern of store failures. -/
theorem wellFormed_preserved :
    WellFormed [] ∧
    (∀ (f : OpFaults) (address elem : GoString) (coll : List Record),
      WellFormed coll → WellFormed (recordOccurrence f address elem coll).state) ∧
    (∀ (faults : Nat → OpFaults) (pageText : List Char) (coll : List Record) (url : URL),
      WellFormed coll → WellFormed (extractKeywords faults pageText coll url).state) := by
  refine ⟨by decide, ?_, ?_⟩
  · intro f address elem coll h
    exact recordOccurrence_wellFormed f address elem coll h
  · intro faults pageText coll url h
    exact indexTokens_invariant WellFormed recordOccurrence_wellFormed faults url.URL
      (tokenize pageText) 0 coll h

/-- Witness of claim C9: a pass over `go go stop` for a second address on a
store that already holds `go` for the first. -/
theorem wellFormed_preserved_witness :
    WellFormed [⟨"go".toList, [⟨seedA, 2⟩]⟩] ∧
    extractKeywords (fun _ => noFaults) "go go stop".toList [⟨"go".toList, [⟨seedA, 2⟩]⟩] taskB =
      .returned [⟨"go".toList, [⟨seedA, 2⟩, ⟨seedB, 2⟩]⟩, ⟨"stop".toList, [⟨seedB, 1⟩]⟩] ∧
    WellFormed (extractKeywords (fun _ => noFaults) "go go stop".toList
      [⟨"go".toList, [⟨seedA, 2⟩]⟩] taskB).state :=
  ⟨by decide, by decide,
    wellFormed_preserved.2.2 (fun _ => noFaults) "go go stop".toList
      [⟨"go".toList, [⟨seedA, 2⟩]⟩] taskB (by decide)⟩

/-- Claim C10, evaluated where it fails: the page of the first seed closes a
title it never opened; `scrape` panics in the first iteration and the run ends
with the second seed still in the frontier, however much fuel is given. -/
theorem urlBfs_stray_tag_leaves_frontier (fuel : Nat) :
    urlBfs strayTagEnv (fuel + 1) 0 ⟨⟨[], []⟩, [taskA, taskB], []⟩ =
      some (.panicked ⟨⟨[], []⟩, [taskB], [taskA]⟩) := by
  rw [urlBfs_cons strayTagEnv fuel 0 ⟨⟨[], []⟩, [taskA, taskB], []⟩ taskA [taskB] rfl]
  have h : urlBfsIter strayTagEnv 0 taskA ⟨⟨[], []⟩, [taskB], []⟩ =
      .panicked ⟨⟨[], []⟩, [taskB], [taskA]⟩ := by decide
  simp only [h]

end Spider
